import Mathlib

/-!
Verification of the Metropolis-Hastings MCMC walker `mhMCMC` from
`MCMCfitting.ipynb`.

The walker is embedded shallowly:

* parameter vectors are `List ℝ`;
* the chi-squared cost is a pure function returning `EReal` (the notebook
  relies on the float value `np.infty` to mark forbidden regions, which the
  extended reals model; ordinary values are real);
* randomness is an oracle `RNG`: `normal i j` is the standard normal draw
  used at step `i` for parameter `j` (the code scales it by `stepsize[j]`),
  and `uniform i` is the uniform `[0, 1)` draw of step `i`.  Where a claim
  needs the range of the uniform draw it appears as a hypothesis;
* the Python `IndexError` raised by `stepsize[j]` when `stepsize` is shorter
  than `initparams` is modelled with `Option`: `none` means the run raised
  and no chain was returned.
-/

namespace MCMC

/-- Oracle for the random number source (`np.random`).  `normal i j` is the
standard normal draw consumed at step `i` for parameter `j`; `uniform i` is
the `np.random.uniform(0., 1.)` draw of step `i`. -/
structure RNG where
  normal : ℕ → ℕ → ℝ
  uniform : ℕ → ℝ

/-- The proposal offset vector of one step, as built by the loop
`dp = np.zeros(len(p)); for j in range(0,len(p)): if stepsize[j] > 0:
dp[j] = np.random.normal(scale=stepsize[j])`: entry `j` is
`stepsize[j] * g j` when `stepsize[j] > 0` and the zero left by `np.zeros`
otherwise (a draw from a normal of standard deviation `s` is `s` times a
standard normal draw). -/
noncomputable def dpDrawn (stepsize : List ℝ) (n : ℕ) (g : ℕ → ℝ) : List ℝ :=
  (List.range n).map fun j =>
    if 0 < stepsize.getD j 0 then stepsize.getD j 0 * g j else 0

/-- The same draw with the partiality of the source: the loop reads
`stepsize[j]` for every `j < len(p)`, so it raises `IndexError` (modelled by
`none`) exactly when `stepsize` is shorter than `p`. -/
noncomputable def drawDp (stepsize : List ℝ) (n : ℕ) (g : ℕ → ℝ) : Option (List ℝ) :=
  if n ≤ stepsize.length then some (dpDrawn stepsize n g) else none

/-- The value `exp (d / 2)` over the extended reals, as the float expression
`np.math.exp((c1 - c2)/2.)` computes it: `exp` of `-∞` is `0` and `exp` of
`+∞` is `+∞`. -/
noncomputable def expHalf (d : EReal) : EReal :=
  if d = ⊥ then 0 else if d = ⊤ then ⊤ else ((Real.exp (d.toReal / 2) : ℝ) : EReal)

/-- One Metropolis-Hastings transition of the loop body: move to `p + dp`
when the proposed cost is strictly lower; otherwise compute
`r = exp((cost p - cost (p + dp))/2)` and move exactly when `r > u`. -/
noncomputable def mhStep (cost : List ℝ → EReal) (p dp : List ℝ) (u : ℝ) :
    List ℝ :=
  if cost (List.zipWith (· + ·) p dp) < cost p then List.zipWith (· + ·) p dp
  else if (u : EReal) < expHalf (cost p - cost (List.zipWith (· + ·) p dp)) then
    List.zipWith (· + ·) p dp
  else p

/-- The walker position after `i` iterations of the loop (`none` when some
iteration raised). -/
noncomputable def mhPos (cost : List ℝ → EReal) (stepsize : List ℝ)
    (rng : RNG) (initparams : List ℝ) : ℕ → Option (List ℝ)
  | 0 => some initparams
  | i + 1 =>
    (mhPos cost stepsize rng initparams i).bind fun p =>
      (drawDp stepsize p.length (rng.normal i)).map fun dp =>
        mhStep cost p dp (rng.uniform i)

/-- Sequence a list of optional values, failing if any entry failed: the
chain `plist` exists only when no iteration raised. -/
def optList {β : Type} : List (Option β) → Option (List β)
  | [] => some []
  | o :: rest => o.bind fun b => (optList rest).map fun bs => b :: bs

/-- The walker `mhMCMC(xi, yi, err, chi2func, initparams, stepsize, nsteps)`:
starting from `plist = [initparams]`, it appends the position reached after
each of the `nsteps` loop iterations and returns the whole sequence, of
length `nsteps + 1`.  `none` models the run raising an exception. -/
noncomputable def mhMCMC {α β γ : Type} (xi : α) (yi : β) (err : γ)
    (chi2func : List ℝ → α → β → γ → EReal)
    (initparams stepsize : List ℝ) (nsteps : ℕ) (rng : RNG) :
    Option (List (List ℝ)) :=
  optList ((List.range (nsteps + 1)).map
    (mhPos (fun q => chi2func q xi yi err) stepsize rng initparams))

/-- A concrete random source for evaluating the walker on concrete inputs:
every standard normal draw is `0` and every uniform draw is `0` (a legal
draw from `[0, 1)`). -/
noncomputable def rngZero : RNG :=
  { normal := fun _ _ => 0, uniform := fun _ => 0 }

/-! Basic facts about the embedding. -/

theorem expHalf_bot : expHalf ⊥ = 0 := by simp [expHalf]

theorem expHalf_top : expHalf ⊤ = ⊤ := by simp [expHalf]

theorem expHalf_coe (x : ℝ) : expHalf (x : EReal) = (Real.exp (x / 2) : ℝ) := by
  simp [expHalf, EReal.coe_ne_bot, EReal.coe_ne_top]

theorem expHalf_zero : expHalf 0 = 1 := by
  rw [← EReal.coe_zero, expHalf_coe]
  norm_num

theorem dpDrawn_length (stepsize : List ℝ) (n : ℕ) (g : ℕ → ℝ) :
    (dpDrawn stepsize n g).length = n := by
  simp [dpDrawn]

theorem dpDrawn_getD (stepsize : List ℝ) (n : ℕ) (g : ℕ → ℝ) (j : ℕ)
    (hj : j < n) :
    (dpDrawn stepsize n g).getD j 0 =
      if 0 < stepsize.getD j 0 then stepsize.getD j 0 * g j else 0 := by
  rw [List.getD_eq_getElem _ _ (by simpa [dpDrawn_length] using hj)]
  simp [dpDrawn]

theorem drawDp_of_le (stepsize : List ℝ) (n : ℕ) (g : ℕ → ℝ)
    (h : n ≤ stepsize.length) :
    drawDp stepsize n g = some (dpDrawn stepsize n g) := by
  simp [drawDp, h]

theorem drawDp_of_lt (stepsize : List ℝ) (n : ℕ) (g : ℕ → ℝ)
    (h : stepsize.length < n) : drawDp stepsize n g = none := by
  simp [drawDp]
  omega

theorem getD_zipWith_add (q dp : List ℝ) (i : ℕ) (hi : i < q.length)
    (hdp : dp.length = q.length) :
    (List.zipWith (· + ·) q dp).getD i 0 = q.getD i 0 + dp.getD i 0 := by
  rw [List.getD_eq_getElem _ _ (by rw [List.length_zipWith]; omega),
    List.getElem_zipWith, List.getD_eq_getElem _ _ hi,
    List.getD_eq_getElem _ _ (by omega)]

theorem mhStep_cases (cost : List ℝ → EReal) (p dp : List ℝ) (u : ℝ) :
    mhStep cost p dp u = List.zipWith (· + ·) p dp ∨ mhStep cost p dp u = p := by
  unfold mhStep
  split_ifs <;> simp

theorem mhStep_length (cost : List ℝ → EReal) (p dp : List ℝ) (u : ℝ)
    (h : p.length ≤ dp.length) : (mhStep cost p dp u).length = p.length := by
  rcases mhStep_cases cost p dp u with hc | hc <;> rw [hc]
  rw [List.length_zipWith]
  omega

theorem mhPos_succ_inv (cost : List ℝ → EReal) (stepsize : List ℝ) (rng : RNG)
    (initparams : List ℝ) (i : ℕ) (q : List ℝ)
    (h : mhPos cost stepsize rng initparams (i + 1) = some q) :
    ∃ p, mhPos cost stepsize rng initparams i = some p ∧
      p.length ≤ stepsize.length ∧
      q = mhStep cost p (dpDrawn stepsize p.length (rng.normal i))
        (rng.uniform i) := by
  rw [mhPos] at h
  obtain ⟨p, hp, h2⟩ := Option.bind_eq_some.mp h
  obtain ⟨dp, hdp, h3⟩ := Option.map_eq_some'.mp h2
  by_cases hle : p.length ≤ stepsize.length
  · rw [drawDp_of_le _ _ _ hle] at hdp
    refine ⟨p, hp, hle, ?_⟩
    rw [← h3, Option.some.inj hdp]
  · rw [drawDp_of_lt _ _ _ (not_le.mp hle)] at hdp
    exact absurd hdp (by simp)

theorem mhPos_succ (cost : List ℝ → EReal) (stepsize : List ℝ) (rng : RNG)
    (initparams : List ℝ) (i : ℕ) (p : List ℝ)
    (hp : mhPos cost stepsize rng initparams i = some p)
    (hle : p.length ≤ stepsize.length) :
    mhPos cost stepsize rng initparams (i + 1) =
      some (mhStep cost p (dpDrawn stepsize p.length (rng.normal i))
        (rng.uniform i)) := by
  rw [mhPos, hp]
  simp [drawDp_of_le _ _ _ hle]

theorem mhPos_length (cost : List ℝ → EReal) (stepsize : List ℝ) (rng : RNG)
    (initparams : List ℝ) (i : ℕ) (p : List ℝ)
    (h : mhPos cost stepsize rng initparams i = some p) :
    p.length = initparams.length := by
  induction i generalizing p with
  | zero =>
    rw [mhPos, Option.some.injEq] at h
    rw [← h]
  | succ i ih =>
    obtain ⟨q, hq, _, rfl⟩ := mhPos_succ_inv cost stepsize rng initparams i p h
    rw [mhStep_length _ _ _ _ (by rw [dpDrawn_length])]
    exact ih q hq

theorem mhPos_isSome (cost : List ℝ → EReal) (stepsize : List ℝ) (rng : RNG)
    (initparams : List ℝ) (hle : initparams.length ≤ stepsize.length) (i : ℕ) :
    ∃ p, mhPos cost stepsize rng initparams i = some p := by
  induction i with
  | zero => exact ⟨initparams, rfl⟩
  | succ i ih =>
    obtain ⟨p, hp⟩ := ih
    have hplen := mhPos_length cost stepsize rng initparams i p hp
    exact ⟨_, mhPos_succ cost stepsize rng initparams i p hp (hplen ▸ hle)⟩

theorem optList_length {β : Type} :
    ∀ (l : List (Option β)) (c : List β), optList l = some c →
      c.length = l.length
  | [], c, h => by
    rw [optList, Option.some.injEq] at h
    exact h ▸ rfl
  | o :: rest, c, h => by
    rw [optList] at h
    obtain ⟨b, _, h2⟩ := Option.bind_eq_some.mp h
    obtain ⟨bs, hbs, h3⟩ := Option.map_eq_some'.mp h2
    rw [← h3]
    simp [optList_length rest bs hbs]

theorem optList_get {β : Type} :
    ∀ (l : List (Option β)) (c : List β), optList l = some c →
      ∀ k (hk : k < l.length) (hk2 : k < c.length),
        l.get ⟨k, hk⟩ = some (c.get ⟨k, hk2⟩)
  | [], _, _, k, hk, _ => absurd hk (by simp)
  | o :: rest, c, h, k, hk, hk2 => by
    rw [optList] at h
    obtain ⟨b, hb, h2⟩ := Option.bind_eq_some.mp h
    obtain ⟨bs, hbs, h3⟩ := Option.map_eq_some'.mp h2
    subst h3
    cases k with
    | zero => simpa using hb
    | succ k =>
      simpa using optList_get rest bs hbs k (by simpa using hk)
        (by simpa using hk2)

theorem optList_isSome {β : Type} :
    ∀ (l : List (Option β)), (∀ o ∈ l, ∃ b, o = some b) →
      ∃ c, optList l = some c
  | [], _ => ⟨[], rfl⟩
  | o :: rest, h => by
    obtain ⟨b, hb⟩ := h o (by simp)
    obtain ⟨c, hc⟩ := optList_isSome rest (fun o ho => h o (by simp [ho]))
    exact ⟨b :: c, by rw [optList, hb, hc]; rfl⟩

theorem optList_eq_none {β : Type} :
    ∀ (l : List (Option β)), none ∈ l → optList l = none
  | o :: rest, h => by
    rw [optList]
    rcases List.mem_cons.mp h with h0 | h0
    · rw [← h0]; rfl
    · rw [optList_eq_none rest h0]
      cases o <;> rfl

/-- Under the valid-input length condition the run raises no exception: the
result is a chain of length `nsteps + 1` whose entry `k` is the walker
position after `k` steps. -/
theorem mhMCMC_some {α β γ : Type} (xi : α) (yi : β) (err : γ)
    (chi2func : List ℝ → α → β → γ → EReal) (initparams stepsize : List ℝ)
    (nsteps : ℕ) (rng : RNG) (hle : initparams.length ≤ stepsize.length) :
    ∃ c, mhMCMC xi yi err chi2func initparams stepsize nsteps rng = some c ∧
      c.length = nsteps + 1 ∧
      ∀ k (hk : k < c.length),
        mhPos (fun q => chi2func q xi yi err) stepsize rng initparams k =
          some (c.get ⟨k, hk⟩) := by
  set cost := fun q => chi2func q xi yi err with hcost
  obtain ⟨c, hc⟩ := optList_isSome
    ((List.range (nsteps + 1)).map (mhPos cost stepsize rng initparams))
    (by
      intro o ho
      obtain ⟨k, _, rfl⟩ := List.mem_map.mp ho
      exact mhPos_isSome cost stepsize rng initparams hle k)
  have hlen : c.length = nsteps + 1 := by
    have := optList_length _ _ hc
    simpa using this
  refine ⟨c, hc, hlen, ?_⟩
  intro k hk
  have hk1 : k < ((List.range (nsteps + 1)).map
      (mhPos cost stepsize rng initparams)).length := by
    simpa using hlen ▸ hk
  have := optList_get _ _ hc k hk1 hk
  simpa using this

/-- Any chain actually returned has length `nsteps + 1` and its entry `k` is
the walker position after `k` steps. -/
theorem mhMCMC_get {α β γ : Type} (xi : α) (yi : β) (err : γ)
    (chi2func : List ℝ → α → β → γ → EReal) (initparams stepsize : List ℝ)
    (nsteps : ℕ) (rng : RNG) (c : List (List ℝ))
    (hc : mhMCMC xi yi err chi2func initparams stepsize nsteps rng = some c) :
    c.length = nsteps + 1 ∧
    ∀ k (hk : k < c.length),
      mhPos (fun q => chi2func q xi yi err) stepsize rng initparams k =
        some (c.get ⟨k, hk⟩) := by
  have hc2 : optList ((List.range (nsteps + 1)).map
      (mhPos (fun q => chi2func q xi yi err) stepsize rng initparams)) =
      some c := hc
  have hlen : c.length = nsteps + 1 := by simpa using optList_length _ _ hc2
  refine ⟨hlen, fun k hk => ?_⟩
  have hk1 : k < ((List.range (nsteps + 1)).map
      (mhPos (fun q => chi2func q xi yi err) stepsize rng initparams)).length := by
    simpa using hlen ▸ hk
  simpa using optList_get _ _ hc2 k hk1 hk

/-- C1: for every valid input (equal lengths of at least 1, any step count,
deterministic cost) the walker returns a chain of length exactly
`nsteps + 1` whose first element is exactly `initparams`; in particular
`nsteps = 0` yields the one-element chain `[initparams]`. -/
theorem mhMCMC_length_head {α β γ : Type} (xi : α) (yi : β) (err : γ)
    (chi2func : List ℝ → α → β → γ → EReal) (initparams stepsize : List ℝ)
    (nsteps : ℕ) (rng : RNG)
    (hlen : initparams.length = stepsize.length)
    (hone : 1 ≤ initparams.length) :
    ∃ c, mhMCMC xi yi err chi2func initparams stepsize nsteps rng = some c ∧
      c.length = nsteps + 1 ∧ c.head? = some initparams := by
  obtain ⟨c, hc, hclen, hget⟩ := mhMCMC_some xi yi err chi2func initparams
    stepsize nsteps rng (le_of_eq hlen)
  refine ⟨c, hc, hclen, ?_⟩
  have h0 : 0 < c.length := by omega
  have hfirst := hget 0 h0
  rw [mhPos] at hfirst
  cases c with
  | nil => exact absurd h0 (by simp)
  | cons a l => simpa using hfirst.symm

/-- C3: every chain entry of index `k + 1` is either its predecessor
unchanged (rejected proposal) or its predecessor plus the single proposal
offset drawn at that step (accepted proposal). -/
theorem mhMCMC_step_cases {α β γ : Type} (xi : α) (yi : β) (err : γ)
    (chi2func : List ℝ → α → β → γ → EReal) (initparams stepsize : List ℝ)
    (nsteps : ℕ) (rng : RNG) (c : List (List ℝ)) (k : ℕ)
    (hc : mhMCMC xi yi err chi2func initparams stepsize nsteps rng = some c)
    (hk1 : k + 1 < c.length) (hk : k < c.length) :
    c.get ⟨k + 1, hk1⟩ = c.get ⟨k, hk⟩ ∨
    c.get ⟨k + 1, hk1⟩ = List.zipWith (· + ·) (c.get ⟨k, hk⟩)
      (dpDrawn stepsize (c.get ⟨k, hk⟩).length (rng.normal k)) := by
  obtain ⟨-, hget⟩ := mhMCMC_get xi yi err chi2func initparams stepsize nsteps
    rng c hc
  obtain ⟨p, hp, -, heq⟩ := mhPos_succ_inv _ stepsize rng initparams k _
    (hget (k + 1) hk1)
  have hpk : p = c.get ⟨k, hk⟩ := by
    have hthis := hget k hk
    rw [hp] at hthis
    exact Option.some.inj hthis
  rw [heq, hpk]
  rcases mhStep_cases (fun q => chi2func q xi yi err) (c.get ⟨k, hk⟩)
    (dpDrawn stepsize (c.get ⟨k, hk⟩).length (rng.normal k))
    (rng.uniform k) with hcase | hcase
  · right
    rw [hcase]
  · left
    rw [hcase]

/-- C7: the walker is deterministic in the random source: two runs with
identical inputs and identical random streams (the model of a fixed seed)
produce identical chains. -/
theorem mhMCMC_deterministic {α β γ : Type} (xi : α) (yi : β) (err : γ)
    (chi2func : List ℝ → α → β → γ → EReal) (initparams stepsize : List ℝ)
    (nsteps : ℕ) (rng₁ rng₂ : RNG)
    (hn : rng₁.normal = rng₂.normal) (hu : rng₁.uniform = rng₂.uniform) :
    mhMCMC xi yi err chi2func initparams stepsize nsteps rng₁ =
      mhMCMC xi yi err chi2func initparams stepsize nsteps rng₂ := by
  obtain ⟨n₁, u₁⟩ := rng₁
  obtain ⟨n₂, u₂⟩ := rng₂
  cases hn
  cases hu
  rfl

/-- C5: when the proposed position has cost `+∞` while the current cost is
finite, the likelihood ratio `r = exp((cost p - cost (p + dp))/2)` evaluates
to `0`, so no uniform draw `u ≥ 0` satisfies `r > u` and the step is always
rejected: the walker stays at `p` and never enters the forbidden region. -/
theorem mhStep_reject_infinite (cost : List ℝ → EReal) (p dp : List ℝ)
    (u ccur : ℝ) (hcur : cost p = (ccur : EReal))
    (hprop : cost (List.zipWith (· + ·) p dp) = ⊤) (hu : 0 ≤ u) :
    expHalf (cost p - cost (List.zipWith (· + ·) p dp)) = 0 ∧
    mhStep cost p dp u = p := by
  have hr : expHalf (cost p - cost (List.zipWith (· + ·) p dp)) = 0 := by
    rw [hcur, hprop, EReal.sub_top, expHalf_bot]
  refine ⟨hr, ?_⟩
  have h1 : ¬ cost (List.zipWith (· + ·) p dp) < cost p := by
    rw [hcur, hprop]
    exact not_top_lt
  have h2 : ¬ ((u : EReal) < expHalf (cost p - cost (List.zipWith (· + ·) p dp))) := by
    rw [hr]
    exact not_lt.mpr (EReal.coe_nonneg.mpr hu)
  unfold mhStep
  rw [if_neg h1, if_neg h2]

/-- C10: when the proposed position has exactly the current (finite) cost,
the strict-improvement test fails, the ratio is `exp 0 = 1`, and since the
uniform draw satisfies `u < 1` the proposal is always accepted. -/
theorem mhStep_accept_equal (cost : List ℝ → EReal) (p dp : List ℝ)
    (u ccur : ℝ) (hcur : cost p = (ccur : EReal))
    (hprop : cost (List.zipWith (· + ·) p dp) = cost p)
    (hu0 : 0 ≤ u) (hu1 : u < 1) :
    mhStep cost p dp u = List.zipWith (· + ·) p dp := by
  have h1 : ¬ cost (List.zipWith (· + ·) p dp) < cost p := by
    rw [hprop]
    exact lt_irrefl _
  have h2 : (u : EReal) < expHalf (cost p - cost (List.zipWith (· + ·) p dp)) := by
    rw [hprop, hcur, ← EReal.coe_sub, sub_self, EReal.coe_zero, expHalf_zero,
      ← EReal.coe_one]
    exact EReal.coe_lt_coe_iff.mpr hu1
  unfold mhStep
  rw [if_neg h1, if_pos h2]

/-- A parameter whose proposal scale is not positive never moves: every
walker position agrees with `initparams` at that index. -/
theorem mhPos_pinned (cost : List ℝ → EReal) (stepsize : List ℝ) (rng : RNG)
    (initparams : List ℝ) (i : ℕ) (hs : ¬ 0 < stepsize.getD i 0) (k : ℕ)
    (p : List ℝ) (hp : mhPos cost stepsize rng initparams k = some p) :
    p.getD i 0 = initparams.getD i 0 := by
  induction k generalizing p with
  | zero =>
    rw [mhPos, Option.some.injEq] at hp
    rw [← hp]
  | succ k ih =>
    obtain ⟨q, hq, -, rfl⟩ := mhPos_succ_inv cost stepsize rng initparams k p hp
    rcases mhStep_cases cost q (dpDrawn stepsize q.length (rng.normal k))
      (rng.uniform k) with hcase | hcase <;> rw [hcase]
    · by_cases hi : i < q.length
      · rw [getD_zipWith_add q _ i hi (dpDrawn_length _ _ _)]
        have hdz : (dpDrawn stepsize q.length (rng.normal k)).getD i 0 = 0 := by
          rw [dpDrawn_getD _ _ _ _ hi, if_neg hs]
        rw [hdz, add_zero]
        exact ih q hq
      · have hqi : initparams.length ≤ i := by
          rw [← mhPos_length cost stepsize rng initparams k q hq]
          omega
        rw [List.getD_eq_default _ _ (by rw [List.length_zipWith, dpDrawn_length]; omega),
          List.getD_eq_default _ _ hqi]
    · exact ih q hq

/-- C4: a zero proposal scale pins that parameter for the whole run: the
drawn offset is exactly `0` at that index at every step, and every element
of the returned chain keeps the initial value there. -/
theorem mhMCMC_pinned_zero {α β γ : Type} (xi : α) (yi : β) (err : γ)
    (chi2func : List ℝ → α → β → γ → EReal) (initparams stepsize : List ℝ)
    (nsteps : ℕ) (rng : RNG) (i : ℕ)
    (hlen : initparams.length = stepsize.length)
    (hi : i < initparams.length) (h0 : stepsize.getD i 0 = 0) :
    (∀ k, (dpDrawn stepsize initparams.length (rng.normal k)).getD i 0 = 0) ∧
    ∃ c, mhMCMC xi yi err chi2func initparams stepsize nsteps rng = some c ∧
      ∀ q ∈ c, q.getD i 0 = initparams.getD i 0 := by
  have hs : ¬ 0 < stepsize.getD i 0 := by
    rw [h0]
    exact lt_irrefl 0
  refine ⟨fun k => ?_, ?_⟩
  · rw [dpDrawn_getD stepsize initparams.length (rng.normal k) i hi, if_neg hs]
  · obtain ⟨c, hc, -, hget⟩ := mhMCMC_some xi yi err chi2func initparams
      stepsize nsteps rng (le_of_eq hlen)
    refine ⟨c, hc, fun q hq => ?_⟩
    obtain ⟨⟨k, hk⟩, rfl⟩ := List.mem_iff_get.mp hq
    exact mhPos_pinned _ stepsize rng initparams i hs k _ (hget k hk)

/-- C9: a negative proposal scale raises no error and behaves exactly like a
zero scale: the guard `stepsize[j] > 0` leaves the offset at `0`, so the
parameter stays at its initial value in every chain element. -/
theorem mhMCMC_pinned_negative {α β γ : Type} (xi : α) (yi : β) (err : γ)
    (chi2func : List ℝ → α → β → γ → EReal) (initparams stepsize : List ℝ)
    (nsteps : ℕ) (rng : RNG) (i : ℕ)
    (hlen : initparams.length = stepsize.length)
    (hi : i < initparams.length) (hneg : stepsize.getD i 0 < 0) :
    (∀ k, (dpDrawn stepsize initparams.length (rng.normal k)).getD i 0 = 0) ∧
    ∃ c, mhMCMC xi yi err chi2func initparams stepsize nsteps rng = some c ∧
      ∀ q ∈ c, q.getD i 0 = initparams.getD i 0 := by
  have hs : ¬ 0 < stepsize.getD i 0 := not_lt.mpr (le_of_lt hneg)
  refine ⟨fun k => ?_, ?_⟩
  · rw [dpDrawn_getD stepsize initparams.length (rng.normal k) i hi, if_neg hs]
  · obtain ⟨c, hc, -, hget⟩ := mhMCMC_some xi yi err chi2func initparams
      stepsize nsteps rng (le_of_eq hlen)
    refine ⟨c, hc, fun q hq => ?_⟩
    obtain ⟨⟨k, hk⟩, rfl⟩ := List.mem_iff_get.mp hq
    exact mhPos_pinned _ stepsize rng initparams i hs k _ (hget k hk)

/-- C6: when the cost is `+∞` at every parameter vector other than
`initparams` and finite at `initparams`, the returned chain is constant at
`initparams` for every step count. -/
theorem mhMCMC_constant_of_forbidden {α β γ : Type} (xi : α) (yi : β) (err : γ)
    (chi2func : List ℝ → α → β → γ → EReal) (initparams stepsize : List ℝ)
    (nsteps : ℕ) (rng : RNG) (ccur : ℝ)
    (hlen : initparams.length = stepsize.length)
    (hinit : chi2func initparams xi yi err = (ccur : EReal))
    (hforbid : ∀ q, q ≠ initparams → chi2func q xi yi err = ⊤)
    (hu : ∀ k, 0 ≤ rng.uniform k) :
    mhMCMC xi yi err chi2func initparams stepsize nsteps rng =
      some (List.replicate (nsteps + 1) initparams) := by
  have hstay : ∀ k, mhPos (fun q => chi2func q xi yi err) stepsize rng
      initparams k = some initparams := by
    intro k
    induction k with
    | zero => rfl
    | succ k ih =>
      rw [mhPos_succ (fun q => chi2func q xi yi err) stepsize rng initparams k
        initparams ih (le_of_eq hlen)]
      have hms : mhStep (fun q => chi2func q xi yi err) initparams
          (dpDrawn stepsize initparams.length (rng.normal k))
          (rng.uniform k) = initparams := by
        by_cases hp : List.zipWith (· + ·) initparams
            (dpDrawn stepsize initparams.length (rng.normal k)) = initparams
        · rcases mhStep_cases (fun q => chi2func q xi yi err) initparams
            (dpDrawn stepsize initparams.length (rng.normal k)) (rng.uniform k)
            with hcase | hcase <;> rw [hcase]
          exact hp
        · have h1 : ¬ ((fun q => chi2func q xi yi err) (List.zipWith (· + ·)
              initparams (dpDrawn stepsize initparams.length (rng.normal k))) <
              (fun q => chi2func q xi yi err) initparams) := by
            show ¬ (chi2func (List.zipWith (· + ·) initparams
              (dpDrawn stepsize initparams.length (rng.normal k))) xi yi err <
              chi2func initparams xi yi err)
            rw [hforbid _ hp, hinit]
            exact not_top_lt
          have h2 : ¬ (((rng.uniform k : ℝ) : EReal) < expHalf
              ((fun q => chi2func q xi yi err) initparams -
                (fun q => chi2func q xi yi err) (List.zipWith (· + ·) initparams
                  (dpDrawn stepsize initparams.length (rng.normal k))))) := by
            show ¬ (((rng.uniform k : ℝ) : EReal) < expHalf
              (chi2func initparams xi yi err -
                chi2func (List.zipWith (· + ·) initparams
                  (dpDrawn stepsize initparams.length (rng.normal k))) xi yi err))
            rw [hforbid _ hp, hinit, EReal.sub_top, expHalf_bot]
            exact not_lt.mpr (EReal.coe_nonneg.mpr (hu k))
          unfold mhStep
          rw [if_neg h1, if_neg h2]
      rw [hms]
  obtain ⟨c, hc, hclen, hget⟩ := mhMCMC_some xi yi err chi2func initparams
    stepsize nsteps rng (le_of_eq hlen)
  have hrep : c = List.replicate (nsteps + 1) initparams := by
    refine List.eq_replicate_iff.mpr ⟨hclen, fun b hb => ?_⟩
    obtain ⟨⟨k, hk⟩, rfl⟩ := List.mem_iff_get.mp hb
    have hx := hget k hk
    rw [hstay k] at hx
    exact (Option.some.inj hx).symm
  rw [hc, hrep]

/-- C2: at every step of the run, the acceptance decision is the source's
rule: move to `current + dp` unconditionally when the proposed cost is
strictly lower, otherwise move exactly when
`r = exp((cost current - cost proposed)/2)` exceeds the uniform draw `u`
from `[0, 1)`, and stay at `current` otherwise. -/
theorem mhMCMC_acceptance_rule {α β γ : Type} (xi : α) (yi : β) (err : γ)
    (chi2func : List ℝ → α → β → γ → EReal) (initparams stepsize : List ℝ)
    (nsteps : ℕ) (rng : RNG) (c : List (List ℝ)) (k : ℕ)
    (hc : mhMCMC xi yi err chi2func initparams stepsize nsteps rng = some c)
    (hk1 : k + 1 < c.length) (hk : k < c.length)
    (hu0 : 0 ≤ rng.uniform k) (hu1 : rng.uniform k < 1) :
    c.get ⟨k + 1, hk1⟩ =
      if chi2func (List.zipWith (· + ·) (c.get ⟨k, hk⟩)
            (dpDrawn stepsize (c.get ⟨k, hk⟩).length (rng.normal k))) xi yi err <
          chi2func (c.get ⟨k, hk⟩) xi yi err then
        List.zipWith (· + ·) (c.get ⟨k, hk⟩)
          (dpDrawn stepsize (c.get ⟨k, hk⟩).length (rng.normal k))
      else if ((rng.uniform k : ℝ) : EReal) <
          expHalf (chi2func (c.get ⟨k, hk⟩) xi yi err -
            chi2func (List.zipWith (· + ·) (c.get ⟨k, hk⟩)
              (dpDrawn stepsize (c.get ⟨k, hk⟩).length (rng.normal k))) xi yi err) then
        List.zipWith (· + ·) (c.get ⟨k, hk⟩)
          (dpDrawn stepsize (c.get ⟨k, hk⟩).length (rng.normal k))
      else c.get ⟨k, hk⟩ := by
  obtain ⟨-, hget⟩ := mhMCMC_get xi yi err chi2func initparams stepsize nsteps
    rng c hc
  obtain ⟨p, hp, -, heq⟩ := mhPos_succ_inv _ stepsize rng initparams k _
    (hget (k + 1) hk1)
  have hpk : p = c.get ⟨k, hk⟩ := by
    have hthis := hget k hk
    rw [hp] at hthis
    exact Option.some.inj hthis
  rw [heq, hpk]
  rfl

/-- C8 (amended): the walker performs no input validation.  The only failure
is the natural indexing error: when `stepsize` is shorter than `initparams`
and at least one step is taken, the first draw raises and no chain at all is
returned. -/
theorem mhMCMC_short_stepsize_none {α β γ : Type} (xi : α) (yi : β) (err : γ)
    (chi2func : List ℝ → α → β → γ → EReal) (initparams stepsize : List ℝ)
    (nsteps : ℕ) (rng : RNG)
    (hlt : stepsize.length < initparams.length) (hn : 1 ≤ nsteps) :
    mhMCMC xi yi err chi2func initparams stepsize nsteps rng = none := by
  have h1 : mhPos (fun q => chi2func q xi yi err) stepsize rng initparams 1 =
      none := by
    cases hopt : mhPos (fun q => chi2func q xi yi err) stepsize rng initparams 1
      with
    | none => rfl
    | some q =>
      obtain ⟨p, hp, hle, -⟩ := mhPos_succ_inv (fun q => chi2func q xi yi err)
        stepsize rng initparams 0 q hopt
      have hpl := mhPos_length (fun q => chi2func q xi yi err) stepsize rng
        initparams 0 p hp
      omega
  show optList ((List.range (nsteps + 1)).map
    (mhPos (fun q => chi2func q xi yi err) stepsize rng initparams)) = none
  apply optList_eq_none
  rw [← h1]
  exact List.mem_map.mpr ⟨1, List.mem_range.mpr (by omega), rfl⟩

/-- A complete concrete run with a negative proposal scale: the guard
`stepsize[j] > 0` leaves the offset at zero, the equal-cost proposal is
accepted, and the walker returns the two-element chain `[[0], [0]]` without
raising. -/
theorem chainZero_eq :
    mhMCMC () () () (fun _ _ _ _ => (0 : EReal)) [0] [-1] 1 rngZero =
      some [[0], [0]] := by
  have hdp : dpDrawn [-1] ([0] : List ℝ).length (rngZero.normal 0) = [0] := by
    show (List.range 1).map _ = [0]
    rw [show List.range 1 = [0] from rfl, List.map_cons, List.map_nil]
    norm_num [List.getD_cons_zero]
  have hacc : ((rngZero.uniform 0 : ℝ) : EReal) < expHalf
      ((fun _ : List ℝ => (0 : EReal)) [0] -
        (fun _ : List ℝ => (0 : EReal)) (List.zipWith (· + ·) [0] [0])) := by
    show ((0 : ℝ) : EReal) < expHalf ((0 : EReal) - (0 : EReal))
    have hsub : (0 : EReal) - (0 : EReal) = 0 := by
      rw [← EReal.coe_zero, ← EReal.coe_sub, sub_zero]
    rw [hsub, expHalf_zero, EReal.coe_zero]
    exact lt_of_lt_of_le (by norm_num : (0 : EReal) < ((1 : ℝ) : EReal)) (le_of_eq EReal.coe_one)
  have hstep : mhStep (fun _ : List ℝ => (0 : EReal)) [0] [0]
      (rngZero.uniform 0) = [0] := by
    have h1 : ¬ ((fun _ : List ℝ => (0 : EReal))
        (List.zipWith (· + ·) [0] [0]) <
        (fun _ : List ℝ => (0 : EReal)) [0]) := lt_irrefl 0
    unfold mhStep
    rw [if_neg h1, if_pos hacc]
    norm_num
  have h1 : mhPos (fun _ : List ℝ => (0 : EReal)) [-1] rngZero [0] 1 =
      some [0] := by
    have hs := mhPos_succ (fun _ : List ℝ => (0 : EReal)) [-1] rngZero [0] 0 [0]
      rfl (by norm_num)
    rw [hdp, hstep] at hs
    exact hs
  show optList ((List.range 2).map
    (mhPos (fun _ : List ℝ => (0 : EReal)) [-1] rngZero [0])) = some [[0], [0]]
  rw [show List.range 2 = [0, 1] from rfl, List.map_cons, List.map_cons,
    List.map_nil, h1]
  rfl

/-- C8 counterexample: at the concrete input `initparams = [0]`,
`scales = [-1]`, one step, the walker does not fail: it returns the full
chain `[[0], [0]]`, so no validation error is raised for a negative scale. -/
theorem mhMCMC_no_error_on_negative_scale :
    mhMCMC () () () (fun _ _ _ _ => (0 : EReal)) [0] [-1] 1 rngZero =
      some [[0], [0]] :=
  chainZero_eq

/-- Witness for C1 at `initparams = [7]`, `stepsize = [1]`, `nsteps = 0`. -/
theorem mhMCMC_length_head_witness :
    ([7] : List ℝ).length = ([1] : List ℝ).length ∧
    1 ≤ ([7] : List ℝ).length ∧
    ∃ c, mhMCMC () () () (fun _ _ _ _ => (0 : EReal)) [7] [1] 0 rngZero =
        some c ∧ c.length = 0 + 1 ∧ c.head? = some [7] :=
  ⟨rfl, by norm_num, mhMCMC_length_head () () () (fun _ _ _ _ => (0 : EReal))
    [7] [1] 0 rngZero rfl (by norm_num)⟩

/-- Witness for C2 on the concrete run of `chainZero_eq`, at step `k = 0`. -/
theorem mhMCMC_acceptance_rule_witness :
    mhMCMC () () () (fun _ _ _ _ => (0 : EReal)) [0] [-1] 1 rngZero =
      some [[0], [0]] ∧
    0 ≤ rngZero.uniform 0 ∧ (0 : ℝ) < 1 ∧
    ([[0], [0]] : List (List ℝ)).get ⟨1, by norm_num⟩ =
      (if (0 : EReal) < (0 : EReal) then
        List.zipWith (· + ·) (([[0], [0]] : List (List ℝ)).get ⟨0, by norm_num⟩)
          (dpDrawn [-1]
            (([[0], [0]] : List (List ℝ)).get ⟨0, by norm_num⟩).length
            (rngZero.normal 0))
      else if ((rngZero.uniform 0 : ℝ) : EReal) <
          expHalf ((0 : EReal) - (0 : EReal)) then
        List.zipWith (· + ·) (([[0], [0]] : List (List ℝ)).get ⟨0, by norm_num⟩)
          (dpDrawn [-1]
            (([[0], [0]] : List (List ℝ)).get ⟨0, by norm_num⟩).length
            (rngZero.normal 0))
      else ([[0], [0]] : List (List ℝ)).get ⟨0, by norm_num⟩) :=
  ⟨chainZero_eq, le_refl 0, by norm_num,
    mhMCMC_acceptance_rule () () () (fun _ _ _ _ => (0 : EReal)) [0] [-1] 1
      rngZero [[0], [0]] 0 chainZero_eq (by norm_num) (by norm_num)
      (le_refl 0) (show (0 : ℝ) < 1 by norm_num)⟩

/-- Witness for C3 on the concrete run of `chainZero_eq`, at step `k = 0`. -/
theorem mhMCMC_step_cases_witness :
    mhMCMC () () () (fun _ _ _ _ => (0 : EReal)) [0] [-1] 1 rngZero =
      some [[0], [0]] ∧
    (([[0], [0]] : List (List ℝ)).get ⟨1, by norm_num⟩ =
        ([[0], [0]] : List (List ℝ)).get ⟨0, by norm_num⟩ ∨
      ([[0], [0]] : List (List ℝ)).get ⟨1, by norm_num⟩ =
        List.zipWith (· + ·) (([[0], [0]] : List (List ℝ)).get ⟨0, by norm_num⟩)
          (dpDrawn [-1]
            (([[0], [0]] : List (List ℝ)).get ⟨0, by norm_num⟩).length
            (rngZero.normal 0))) :=
  ⟨chainZero_eq, mhMCMC_step_cases () () () (fun _ _ _ _ => (0 : EReal))
    [0] [-1] 1 rngZero [[0], [0]] 0 chainZero_eq (by norm_num) (by norm_num)⟩

/-- Witness for C4 at `initparams = [5]`, `stepsize = [0]`: the single
parameter is pinned. -/
theorem mhMCMC_pinned_zero_witness :
    ([5] : List ℝ).length = ([0] : List ℝ).length ∧
    0 < ([5] : List ℝ).length ∧ ([0] : List ℝ).getD 0 0 = 0 ∧
    ((∀ k, (dpDrawn [0] ([5] : List ℝ).length (rngZero.normal k)).getD 0 0 = 0) ∧
      ∃ c, mhMCMC () () () (fun _ _ _ _ => (0 : EReal)) [5] [0] 2 rngZero =
          some c ∧ ∀ q ∈ c, q.getD 0 0 = ([5] : List ℝ).getD 0 0) :=
  ⟨rfl, by norm_num, by simp, mhMCMC_pinned_zero () () ()
    (fun _ _ _ _ => (0 : EReal)) [5] [0] 2 rngZero 0 rfl (by norm_num) (by simp)⟩

/-- Witness for C5: a proposal into the forbidden region (cost `⊤`) from a
finite-cost position is rejected and the ratio is `0`. -/
theorem mhStep_reject_infinite_witness :
    (fun q : List ℝ => if q.getD 0 0 ≤ 0 then ((0 : ℝ) : EReal) else ⊤) [0] =
      ((0 : ℝ) : EReal) ∧
    (fun q : List ℝ => if q.getD 0 0 ≤ 0 then ((0 : ℝ) : EReal) else ⊤)
      (List.zipWith (· + ·) [0] [1]) = ⊤ ∧
    0 ≤ (0 : ℝ) ∧
    (expHalf ((fun q : List ℝ => if q.getD 0 0 ≤ 0 then ((0 : ℝ) : EReal) else ⊤) [0] -
        (fun q : List ℝ => if q.getD 0 0 ≤ 0 then ((0 : ℝ) : EReal) else ⊤)
          (List.zipWith (· + ·) [0] [1])) = 0 ∧
      mhStep (fun q : List ℝ => if q.getD 0 0 ≤ 0 then ((0 : ℝ) : EReal) else ⊤)
        [0] [1] 0 = [0]) := by
  have hcur : (fun q : List ℝ => if q.getD 0 0 ≤ 0 then ((0 : ℝ) : EReal) else ⊤)
      [0] = ((0 : ℝ) : EReal) := by
    norm_num [List.getD_cons_zero]
  have hprop : (fun q : List ℝ => if q.getD 0 0 ≤ 0 then ((0 : ℝ) : EReal) else ⊤)
      (List.zipWith (· + ·) [0] [1]) = ⊤ := by
    norm_num [List.zipWith_cons_cons, List.zipWith_nil_left, List.getD_cons_zero]
  exact ⟨hcur, hprop, le_refl 0, mhStep_reject_infinite
    (fun q : List ℝ => if q.getD 0 0 ≤ 0 then ((0 : ℝ) : EReal) else ⊤)
    [0] [1] 0 0 hcur hprop (le_refl 0)⟩

/-- Witness for C6: with a cost that is `⊤` away from `[0]`, a three-element
chain stays constant at `[0]`. -/
theorem mhMCMC_constant_of_forbidden_witness :
    ([0] : List ℝ).length = ([1] : List ℝ).length ∧
    mhMCMC () () ()
        (fun q _ _ _ => if q = ([0] : List ℝ) then ((0 : ℝ) : EReal) else ⊤)
        [0] [1] 2 rngZero = some (List.replicate (2 + 1) [0]) :=
  ⟨rfl, mhMCMC_constant_of_forbidden () () ()
    (fun q _ _ _ => if q = ([0] : List ℝ) then ((0 : ℝ) : EReal) else ⊤)
    [0] [1] 2 rngZero 0 rfl (if_pos rfl) (fun _ hq => if_neg hq)
    (fun _ => le_refl 0)⟩

/-- Witness for C7: two runs fed the same random streams agree. -/
theorem mhMCMC_deterministic_witness :
    mhMCMC () () () (fun _ _ _ _ => (0 : EReal)) [0] [1] 3 rngZero =
      mhMCMC () () () (fun _ _ _ _ => (0 : EReal)) [0] [1] 3 rngZero :=
  mhMCMC_deterministic () () () (fun _ _ _ _ => (0 : EReal)) [0] [1] 3
    rngZero rngZero rfl rfl

/-- Witness for the amended C8: a `stepsize` shorter than `initparams` with
one step taken returns no chain at all. -/
theorem mhMCMC_short_stepsize_none_witness :
    ([1] : List ℝ).length < ([0, 0] : List ℝ).length ∧ (1 : ℕ) ≤ 1 ∧
    mhMCMC () () () (fun _ _ _ _ => (0 : EReal)) [0, 0] [1] 1 rngZero = none :=
  ⟨by norm_num, le_refl 1, mhMCMC_short_stepsize_none () () ()
    (fun _ _ _ _ => (0 : EReal)) [0, 0] [1] 1 rngZero (by norm_num) (le_refl 1)⟩

/-- Witness for C9 at `initparams = [5]`, `stepsize = [-2]`: the negative
scale raises no error and pins the parameter. -/
theorem mhMCMC_pinned_negative_witness :
    ([5] : List ℝ).length = ([-2] : List ℝ).length ∧
    0 < ([5] : List ℝ).length ∧ ([-2] : List ℝ).getD 0 0 < 0 ∧
    ((∀ k, (dpDrawn [-2] ([5] : List ℝ).length (rngZero.normal k)).getD 0 0 = 0) ∧
      ∃ c, mhMCMC () () () (fun _ _ _ _ => (0 : EReal)) [5] [-2] 2 rngZero =
          some c ∧ ∀ q ∈ c, q.getD 0 0 = ([5] : List ℝ).getD 0 0) :=
  ⟨rfl, by norm_num, by norm_num [List.getD_cons_zero],
    mhMCMC_pinned_negative () () () (fun _ _ _ _ => (0 : EReal)) [5] [-2] 2
      rngZero 0 rfl (by norm_num) (by norm_num [List.getD_cons_zero])⟩

/-- Witness for C10: an equal-cost proposal is accepted for the draw
`u = 0 < 1`. -/
theorem mhStep_accept_equal_witness :
    (fun _ : List ℝ => ((0 : ℝ) : EReal)) [0] = ((0 : ℝ) : EReal) ∧
    (fun _ : List ℝ => ((0 : ℝ) : EReal)) (List.zipWith (· + ·) [0] [1]) =
      (fun _ : List ℝ => ((0 : ℝ) : EReal)) [0] ∧
    0 ≤ (0 : ℝ) ∧ (0 : ℝ) < 1 ∧
    mhStep (fun _ : List ℝ => ((0 : ℝ) : EReal)) [0] [1] 0 =
      List.zipWith (· + ·) [0] [1] :=
  ⟨rfl, rfl, le_refl 0, by norm_num, mhStep_accept_equal
    (fun _ : List ℝ => ((0 : ℝ) : EReal)) [0] [1] 0 0 rfl rfl
    (le_refl 0) (by norm_num)⟩

end MCMC
